import Mathlib

/-
Verification of the GuideSight indoor-navigation core: a shallow embedding of
`localization.py` (ORB landmark matching), `navigation.py` (A* route planner
over the per-location path graph), `app.py` (session state machine, confidence
normalization) and `database.py` (landmark store writes), together with proofs
of the specified properties.
-/

set_option maxHeartbeats 1000000

namespace GuideSight

/-! ## Localizer (localization.py) -/

/-- A binary feature descriptor set (rows of byte values) as produced by the
external ORB feature extractor. -/
abbrev Desc : Type := List (List Nat)

/-- One stored landmark frame as returned by `Database.get_location_frames`
(database.py lines 145-160): frame id, sequence number, and the unpickled
descriptor set (`none` models a missing/NULL descriptor blob, which the
matching loop skips). -/
structure FrameData where
  id : Nat
  sequence : Nat
  descriptors : Option Desc
deriving DecidableEq

/-- Number of good matches between live and stored descriptors
(localization.py lines 46-49).  The external OpenCV brute-force matcher
`self.matcher.match` is modelled as a function `matchFn` returning the list of
match distances; a good match has distance strictly below 50. -/
def goodMatchCount (matchFn : Desc → Desc → List ℚ) (cur saved : Desc) : Nat :=
  ((matchFn cur saved).filter (fun d => d < 50)).length

/-- Match score of one saved frame against the live descriptors; `none` when
the stored descriptor blob is absent (the loop `continue`s,
localization.py lines 42-43). -/
def frameScore (matchFn : Desc → Desc → List ℚ) (cur : Desc) (fd : FrameData) : Option Nat :=
  fd.descriptors.map (fun sd => goodMatchCount matchFn cur sd)

/-- Defaulted match score of a frame: score 0 when the descriptor blob is
absent.  Used to state the maximum over a stored frame set. -/
def scoreD (matchFn : Desc → Desc → List ℚ) (cur : Desc) (fd : FrameData) : Nat :=
  (frameScore matchFn cur fd).getD 0

/-- The best-match scan of `Localizer.localize` (localization.py lines 34-54):
fold over the saved frames, keeping `(best_match, best_match_count,
best_sequence)`, updating only on a strictly larger good-match count. -/
def bestLoop (score : FrameData → Option Nat) :
    List FrameData → Option Nat × Nat × Nat → Option Nat × Nat × Nat
  | [], acc => acc
  | fd :: rest, (bm, bc, bs) =>
    match score fd with
    | none => bestLoop score rest (bm, bc, bs)
    | some g =>
      if bc < g then bestLoop score rest (some fd.id, g, fd.sequence)
      else bestLoop score rest (bm, bc, bs)

/-- Shallow embedding of `Localizer.localize` (localization.py lines 18-61).
`kpCount` is `len(current_kp)` and `curDesc` the live descriptor set from
`extract_features`; `matchFn` models the external matcher.  The confidence
threshold is the field `self.confidence_threshold = 30`. -/
def localize (matchFn : Desc → Desc → List ℚ) (kpCount : Nat) (curDesc : Option Desc)
    (savedFrames : List FrameData) : Option Nat × Nat × Option Nat :=
  match curDesc with
  | none => (none, 0, none)
  | some cd =>
    if kpCount < 10 then (none, 0, none)
    else if savedFrames = [] then (none, 0, none)
    else
      let r := bestLoop (frameScore matchFn cd) savedFrames (none, 0, 0)
      if 30 ≤ r.2.1 then (r.1, r.2.1, some r.2.2) else (none, r.2.1, none)

/-- Maximum defaulted match score over a stored frame set (0 when empty). -/
def maxScore (score : FrameData → Option Nat) (l : List FrameData) : Nat :=
  l.foldr (fun fd m => max ((score fd).getD 0) m) 0

/-! ## Confidence normalization (app.py lines 206-217) -/

/-- Round half to even on rationals: the semantics of Python `round` for a
tie-free or tied argument (banker's rounding). -/
def roundHalfEven (q : ℚ) : ℤ :=
  let n := ⌊q⌋
  let r := q - n
  if r < 1/2 then n
  else if 1/2 < r then n + 1
  else if Even n then n else n + 1

/-- Python `round(x, 1)`: round to one decimal place, ties to even. -/
def round1 (q : ℚ) : ℚ := ((roundHalfEven (10 * q) : ℚ)) / 10

/-- Shallow embedding of `_cap_confidence` (app.py lines 206-217) on numeric
input: values in `[0, 1]` are scaled by 100, the result is clamped to
`[0, 100]` and rounded to one decimal. -/
def cap_confidence (val : ℚ) : ℚ :=
  let v := if 0 ≤ val ∧ val ≤ 1 then val * 100 else val
  round1 (max 0 (min v 100))

/-! ## Navigator (navigation.py) -/

/-- The navigator's mutable state: `self.current_path` and `self.current_step`
(navigation.py lines 4-8). -/
structure NavState where
  current_path : List Nat
  current_step : Nat
deriving DecidableEq

/-- Shallow embedding of `Navigator.get_next_instruction`
(navigation.py lines 84-100).  The `nodes` argument of the source is unused by
the function body and omitted here. -/
def get_next_instruction (st : NavState) : String :=
  if st.current_path = [] ∨ st.current_path.length ≤ st.current_step then
    "Destination reached"
  else if st.current_step = st.current_path.length - 1 then
    "Destination reached"
  else
    "Continue forward 0.7 meters"

/-- Lexicographic strict comparison of heap entries `(f_score, node_id)`:
Python tuple comparison as used by `heapq`. -/
def entryLtb (a b : WithTop ℚ × Nat) : Bool :=
  if a.1 < b.1 then true
  else if a.1 = b.1 ∧ a.2 < b.2 then true
  else false

/-- The minimum entry of the open set under tuple comparison: `heapq.heappop`
always yields the smallest element of the heap. -/
def heapMin : List (WithTop ℚ × Nat) → Option (WithTop ℚ × Nat)
  | [] => none
  | x :: xs => some (xs.foldl (fun m y => if entryLtb y m then y else m) x)

/-- State of the A* search loop (navigation.py lines 41-48): the open set (a
priority queue of `(f_score, node)` pairs), the predecessor map `came_from`
(an association list with latest binding first, modelling dict overwrite), and
the `g_score`/`f_score` maps (⊤ models `float('inf')`). -/
structure AStarState where
  openSet : List (WithTop ℚ × Nat)
  cameFrom : List (Nat × Nat)
  gScore : Nat → WithTop ℚ
  fScore : Nat → WithTop ℚ

/-- Heuristic of `Navigator._heuristic` (navigation.py lines 69-73): absolute
position difference times 0.7 meters per position unit. -/
def heuristic (pos : Nat → Nat) (n1 n2 : Nat) : ℚ :=
  |(pos n2 : ℚ) - (pos n1 : ℚ)| * (7/10)

/-- One relaxation step of the A* inner `for` loop
(navigation.py lines 56-65): on strict improvement of `g_score[neighbor]`,
record the predecessor, update `g_score` and `f_score`, and push the neighbor
unless it is already in the open set. -/
def relaxOne (pos : Nat → Nat) (goal current : Nat) (st : AStarState) (e : Nat × ℚ) :
    AStarState :=
  let tentative := st.gScore current + (e.2 : WithTop ℚ)
  if tentative < st.gScore e.1 then
    let f' := tentative + ((heuristic pos e.1 goal : ℚ) : WithTop ℚ)
    { openSet :=
        if e.1 ∈ st.openSet.map Prod.snd then st.openSet
        else st.openSet ++ [(f', e.1)]
      cameFrom := (e.1, current) :: st.cameFrom
      gScore := fun n => if n = e.1 then tentative else st.gScore n
      fScore := fun n => if n = e.1 then f' else st.fScore n }
  else st

/-- The walk of `Navigator._reconstruct_path` (navigation.py lines 75-82),
accumulating the reversed path directly; the fuel argument bounds the walk of
the predecessor map (the Python `while` loop). -/
def reconAux (cf : List (Nat × Nat)) : Nat → Nat → List Nat → List Nat
  | 0, _, acc => acc
  | fuel + 1, cur, acc =>
    match List.lookup cur cf with
    | none => acc
    | some p => reconAux cf fuel p (p :: acc)

/-- Shallow embedding of `Navigator._reconstruct_path`: walk the predecessor
map from the goal back to the start, producing start-to-goal order.  One more
step than there are map entries always suffices on an acyclic map. -/
def reconstructPath (cf : List (Nat × Nat)) (cur : Nat) : List Nat :=
  reconAux cf (cf.length + 1) cur [cur]

/-- The `while open_set` loop of `Navigator._astar`
(navigation.py lines 50-67): pop the minimum entry, return the reconstructed
path on reaching the goal, otherwise relax all neighbors and continue.  The
fuel argument bounds the number of iterations of the Python loop; exhausted
fuel returns `none` like an emptied queue. -/
def astarLoop (adj : Nat → List (Nat × ℚ)) (pos : Nat → Nat) (goal : Nat) :
    Nat → AStarState → Option (List Nat)
  | 0, _ => none
  | fuel + 1, st =>
    match heapMin st.openSet with
    | none => none
    | some entry =>
      let rest := st.openSet.erase entry
      if entry.2 = goal then some (reconstructPath st.cameFrom entry.2)
      else
        astarLoop adj pos goal fuel
          ((adj entry.2).foldl (relaxOne pos goal entry.2) { st with openSet := rest })

/-- Initial A* state (navigation.py lines 42-48): open set `[(0, start)]`,
empty predecessor map, `g_score` infinite except 0 at the start, `f_score`
infinite except the heuristic at the start. -/
def astarInit (pos : Nat → Nat) (start goal : Nat) : AStarState :=
  { openSet := [(((0 : ℚ) : WithTop ℚ), start)]
    cameFrom := []
    gScore := fun n => if n = start then ((0 : ℚ) : WithTop ℚ) else ⊤
    fScore := fun n => if n = start then ((heuristic pos start goal : ℚ) : WithTop ℚ) else ⊤ }

/-- Shallow embedding of `Navigator._astar` (navigation.py lines 39-67). -/
def astar (adj : Nat → List (Nat × ℚ)) (pos : Nat → Nat) (fuel : Nat)
    (start goal : Nat) : Option (List Nat) :=
  astarLoop adj pos goal fuel (astarInit pos start goal)

/-- Adjacency list built by `plan_route` (navigation.py lines 26-28): the
edges leaving `n`, in edge-list order. -/
def buildAdj (edges : List (Nat × Nat × ℚ)) (n : Nat) : List (Nat × ℚ) :=
  (edges.filter (fun e => e.1 == n)).map (fun e => e.2)

/-- Python `max(nodes.keys(), key=lambda k: nodes[k]['position'])`
(navigation.py lines 22-23): the first node of maximal position, over the
node list in query order. -/
def maxPosNode : List (Nat × Nat) → Nat
  | [] => 0
  | n :: rest => (rest.foldl (fun best x => if best.2 < x.2 then x else best) n).1

/-- Position lookup `nodes[node]['position']` over the node list returned by
`get_navigation_graph` (pairs of node id and position index). -/
def nodePos (nodes : List (Nat × Nat)) (n : Nat) : Nat :=
  ((nodes.find? (fun p => p.1 == n)).map Prod.snd).getD 0

/-- Shallow embedding of `Navigator.plan_route` (navigation.py lines 10-37):
returns the planned path together with the updated navigator state.  The
nodes/edges lists are the value of `db.get_navigation_graph(location_name)`;
the A* fuel `nodes.length + 1` bounds the source loop's iteration count. -/
def plan_route (nodes : List (Nat × Nat)) (edges : List (Nat × Nat × ℚ)) (st : NavState)
    (currentNode : Nat) (destOpt : Option Nat) : Option (List Nat) × NavState :=
  if nodes = [] then (none, st)
  else
    let dest := destOpt.getD (maxPosNode nodes)
    match astar (buildAdj edges) (nodePos nodes) (nodes.length + 1) currentNode dest with
    | some p => if p = [] then (none, st) else (some p, ⟨p, 0⟩)
    | none => (none, st)

/-! ## Session state machine (app.py) -/

/-- The `app_state['mode']` field: `'idle' | 'mapping' | 'navigating'`. -/
inductive Mode
  | idle
  | mapping
  | navigating
deriving DecidableEq

/-- The session state: the `app_state` dict fields relevant to the claims
together with the navigator's own `current_path`/`current_step` fields, which
the stop command mutates directly (app.py line 344). -/
structure SessionState where
  mode : Mode
  current_location : Option String
  mapping_frames : Nat
  current_position : Option Nat
  destination : Option String
  nav_path : List Nat
  nav_step : Nat
deriving DecidableEq

/-- Result of a command endpoint: the `status`/`message` fields of the JSON
response. -/
structure CmdResult where
  status : String
  message : String
deriving DecidableEq

/-- Shallow embedding of the state mutation of `start_mapping`
(app.py lines 107-125): sets mapping mode, the location and a zero frame
counter, with no check of the current mode. -/
def start_mapping (locationName : String) (st : SessionState) : CmdResult × SessionState :=
  (⟨"success", "Mapping " ++ locationName⟩,
   { st with
       mode := Mode.mapping
       current_location := some locationName
       mapping_frames := 0 })

/-- Shallow embedding of the state mutation of `start_navigation`
(app.py lines 174-194): reject when the requested destination is not a saved
location, otherwise set navigating mode and the destination, with no check of
the current mode. -/
def start_navigation (locations : List String) (destination : Option String)
    (st : SessionState) : CmdResult × SessionState :=
  match destination with
  | none => (⟨"error", "Location not found"⟩, st)
  | some d =>
    if d ∈ locations then
      (⟨"success", "Navigating to " ++ d⟩,
       { st with mode := Mode.navigating, destination := some d })
    else
      (⟨"error", "Location not found"⟩, st)

/-- Shallow embedding of `stop_navigation` (app.py lines 338-348): in
navigating mode, force idle, clear the destination and the navigator's path;
otherwise report an error and change nothing. -/
def stop_navigation (st : SessionState) : CmdResult × SessionState :=
  if st.mode = Mode.navigating then
    (⟨"success", "Navigation stopped"⟩,
     { st with mode := Mode.idle, destination := none, nav_path := [] })
  else
    (⟨"error", "Not in navigation mode"⟩, st)

/-! ## Landmark store writes (database.py) -/

/-- A row of the `frames` table (the fields the claims depend on). -/
structure FrameRec where
  id : Nat
  locationId : Nat
  seq : Nat
deriving DecidableEq

/-- A row of the `graph_nodes` table. -/
structure NodeRec where
  id : Nat
  locationId : Nat
  frameId : Nat
  posIndex : Nat
deriving DecidableEq

/-- A row of the `graph_edges` table. -/
structure EdgeRec where
  fromNode : Nat
  toNode : Nat
  distance : ℚ
deriving DecidableEq

/-- The landmark store: the three tables in insertion order plus the
autoincrement counters of the `frames` and `graph_nodes` tables. -/
structure Store where
  frames : List FrameRec
  nodes : List NodeRec
  edges : List EdgeRec
  nextFrameId : Nat
  nextNodeId : Nat
deriving DecidableEq

/-- The `SELECT id FROM graph_nodes WHERE location_id = ? AND
position_index = ?` lookup with `fetchone` (database.py lines 110-114): the
first matching row in table order. -/
def findPrevNode (nodes : List NodeRec) (locId seq : Nat) : Option NodeRec :=
  nodes.find? (fun n => n.locationId == locId && n.posIndex == seq - 1)

/-- Shallow embedding of `Database.save_frame` (database.py lines 82-130):
insert the frame row, insert its graph node, and for a positive sequence
number insert the bidirectional pair of edges of weight 0.7 to the node at the
previous sequence index, when that node exists.  Returns the new frame id and
the updated store. -/
def save_frame (locId seq : Nat) (st : Store) : Nat × Store :=
  let fid := st.nextFrameId
  let frames' := st.frames ++ [⟨fid, locId, seq⟩]
  let nid := st.nextNodeId
  let nodes' := st.nodes ++ [⟨nid, locId, fid, seq⟩]
  let edges' :=
    if 0 < seq then
      match findPrevNode nodes' locId seq with
      | some prev => st.edges ++ [⟨prev.id, nid, 7/10⟩, ⟨nid, prev.id, 7/10⟩]
      | none => st.edges
    else st.edges
  (fid, ⟨frames', nodes', edges', fid + 1, nid + 1⟩)

/-- One capture of the mapping loop: the keypoint count and the (possibly
absent) descriptor set returned by `extract_features`. -/
structure Capture where
  kpCount : Nat
  descriptors : Option Desc
deriving DecidableEq

/-- One tick of `mapping_loop` (app.py lines 132-148) on a captured frame:
persist only when descriptors are present and `len(kp) > 50`, then increment
the `mapping_frames` counter; the counter is the sequence number of the saved
frame. -/
def mapping_step (locId : Nat) (s : Store × Nat) (cap : Capture) : Store × Nat :=
  if cap.descriptors.isSome ∧ 50 < cap.kpCount then
    ((save_frame locId s.2 s.1).2, s.2 + 1)
  else s

/-- The mapping loop over a finite list of captured frames, starting from a
store and a frame counter. -/
def mapping_run (locId : Nat) (caps : List Capture) (s : Store × Nat) : Store × Nat :=
  caps.foldl (mapping_step locId) s

/-- The empty landmark store (`sqlite` autoincrement ids start at 1). -/
def emptyStore : Store := ⟨[], [], [], 1, 1⟩

/-! ## Path-graph instances and the A* loop invariant

A valid path-graph instance has `N` nodes with pairwise distinct ids
`ids 0, …, ids (N-1)`, node `ids i` at position index `i`, and bidirectional
edges of one fixed weight `w` between consecutive positions — exactly the
graphs `save_frame` builds.  `nbrs i` is the adjacency list of `ids i` (any
valid edge-list order yields this list or its reverse). -/

/-- Adjacency of the node at position `i` in a path-graph instance. -/
def nbrs (ids : Nat → Nat) (N : Nat) (w : ℚ) (i : Nat) : List (Nat × ℚ) :=
  (if i + 1 < N then [(ids (i + 1), w)] else []) ++
    (if 0 < i then [(ids (i - 1), w)] else [])

/-- The position indices from `ps` to `pt` inclusive, in travel order. -/
def posSeg (ps pt : Nat) : List Nat :=
  if ps ≤ pt then List.range' ps (pt - ps + 1)
  else (List.range' pt (ps - pt + 1)).reverse

/-- Invariant on the `g_score`/`came_from` part of the A* state over a
path-graph instance: the nodes with finite `g_score` are exactly the interval
of positions `[lo, hi]`, their `g_score` is the exact distance from the start,
and `came_from` maps each of them (except the start) to its neighbor on the
start side. -/
structure GCore (ids : Nat → Nat) (N ps : Nat) (w : ℚ) (st : AStarState)
    (lo hi : Nat) : Prop where
  lo_le : lo ≤ ps
  le_hi : ps ≤ hi
  hi_lt : hi < N
  g_in : ∀ i, lo ≤ i → i ≤ hi →
    st.gScore (ids i) = (((Nat.dist i ps : ℚ) * w : ℚ) : WithTop ℚ)
  g_out : ∀ i, i < N → (i < lo ∨ hi < i) → st.gScore (ids i) = ⊤
  cf_up : ∀ i, ps < i → i ≤ hi → List.lookup (ids i) st.cameFrom = some (ids (i - 1))
  cf_dn : ∀ i, lo ≤ i → i < ps → List.lookup (ids i) st.cameFrom = some (ids (i + 1))
  cf_ps : List.lookup (ids ps) st.cameFrom = none
  cf_len : st.cameFrom.length = hi - lo

/-- Invariant on the ghost set `P` of already popped positions: popped
positions lie in the finite interval, the goal is not yet popped, and every
neighbor of a popped position is finite. -/
structure PCore (N pt : Nat) (P : Finset Nat) (lo hi : Nat) : Prop where
  P_lo : ∀ p ∈ P, lo ≤ p
  P_hi : ∀ p ∈ P, p ≤ hi
  pt_not : pt ∉ P
  P_up : ∀ p ∈ P, p + 1 < N → p + 1 ≤ hi
  P_dn : ∀ p ∈ P, 0 < p → lo < p

/-- Full loop-head invariant of the A* `while` loop on a path-graph instance:
the open set holds exactly the finite, not yet popped nodes. -/
structure AInv (ids : Nat → Nat) (N ps pt : Nat) (w : ℚ) (st : AStarState)
    (P : Finset Nat) (lo hi : Nat)
    extends GCore ids N ps w st lo hi, PCore N pt P lo hi : Prop where
  open_iff : ∀ n, n ∈ st.openSet.map Prod.snd ↔
    ∃ i, lo ≤ i ∧ i ≤ hi ∧ i ∉ P ∧ n = ids i
  open_nodup : (st.openSet.map Prod.snd).Nodup

/-- Invariant holding between popping position `c` and finishing its
relaxations: like `AInv`, but `c` is additionally excluded from the open
set and not yet subject to the popped-neighbor conditions. -/
structure MidInv (ids : Nat → Nat) (N ps pt : Nat) (w : ℚ) (st : AStarState)
    (P : Finset Nat) (lo hi c : Nat)
    extends GCore ids N ps w st lo hi, PCore N pt P lo hi : Prop where
  c_lo : lo ≤ c
  c_hi : c ≤ hi
  c_not : c ∉ P
  open_iff : ∀ n, n ∈ st.openSet.map Prod.snd ↔
    ∃ i, lo ≤ i ∧ i ≤ hi ∧ i ∉ P ∧ i ≠ c ∧ n = ids i
  open_nodup : (st.openSet.map Prod.snd).Nodup

/-! ## Properties of the best-match scan -/

theorem bestLoop_no_improve (s : FrameData → Option Nat) :
    ∀ (l : List FrameData) (bm : Option Nat) (bc bs : Nat),
      (∀ fd ∈ l, (s fd).getD 0 ≤ bc) → bestLoop s l (bm, bc, bs) = (bm, bc, bs) := by
  intro l
  induction l with
  | nil => intro bm bc bs _; rfl
  | cons fd rest ih =>
    intro bm bc bs h
    have hfd := h fd (List.mem_cons_self fd rest)
    have hrest : ∀ x ∈ rest, (s x).getD 0 ≤ bc :=
      fun x hx => h x (List.mem_cons_of_mem _ hx)
    cases hs : s fd with
    | none => simp only [bestLoop, hs]; exact ih bm bc bs hrest
    | some g =>
      have hg : ¬ bc < g := by rw [hs] at hfd; simp only [Option.getD_some] at hfd; omega
      simp only [bestLoop, hs, if_neg hg]
      exact ih bm bc bs hrest

theorem bestLoop_count (s : FrameData → Option Nat) :
    ∀ (l : List FrameData) (bm : Option Nat) (bc bs : Nat),
      (bestLoop s l (bm, bc, bs)).2.1 = max bc (maxScore s l) := by
  intro l
  induction l with
  | nil => intro bm bc bs; simp [bestLoop, maxScore]
  | cons fd rest ih =>
    intro bm bc bs
    have hcons : maxScore s (fd :: rest) = max ((s fd).getD 0) (maxScore s rest) := rfl
    cases hs : s fd with
    | none =>
      simp only [bestLoop, hs]
      rw [ih, hcons, hs]
      simp only [Option.getD_none, Nat.zero_max]
    | some g =>
      by_cases hbc : bc < g
      · simp only [bestLoop, hs, if_pos hbc]
        rw [ih, hcons, hs]
        simp only [Option.getD_some]
        have h1 : bc ≤ max g (maxScore s rest) :=
          le_trans (le_of_lt hbc) (Nat.le_max_left _ _)
        omega
      · simp only [bestLoop, hs, if_neg hbc]
        rw [ih, hcons, hs]
        simp only [Option.getD_some]
        omega

theorem bestLoop_argmax (s : FrameData → Option Nat) :
    ∀ (l₁ : List FrameData) (fd₀ : FrameData) (l₂ : List FrameData) (M : Nat)
      (bm : Option Nat) (bc bs : Nat),
      (∀ fd ∈ l₁, (s fd).getD 0 < M) → (s fd₀).getD 0 = M →
      (∀ fd ∈ l₂, (s fd).getD 0 ≤ M) → bc < M →
      bestLoop s (l₁ ++ fd₀ :: l₂) (bm, bc, bs) = (some fd₀.id, M, fd₀.sequence) := by
  intro l₁
  induction l₁ with
  | nil =>
    intro fd₀ l₂ M bm bc bs _ h0 h2 hbc
    have hsome : s fd₀ = some M := by
      cases hs : s fd₀ with
      | none => rw [hs] at h0; simp only [Option.getD_none] at h0; omega
      | some g => rw [hs] at h0; simp only [Option.getD_some] at h0; rw [h0]
    simp only [List.nil_append, bestLoop, hsome, if_pos hbc]
    exact bestLoop_no_improve s l₂ _ _ _ h2
  | cons fd rest ih =>
    intro fd₀ l₂ M bm bc bs h1 h0 h2 hbc
    have hlt := h1 fd (List.mem_cons_self fd rest)
    have h1' : ∀ x ∈ rest, (s x).getD 0 < M := fun x hx => h1 x (List.mem_cons_of_mem _ hx)
    cases hs : s fd with
    | none =>
      simp only [List.cons_append, bestLoop, hs]
      exact ih fd₀ l₂ M bm bc bs h1' h0 h2 hbc
    | some g =>
      have hgM : g < M := by rw [hs] at hlt; simpa using hlt
      by_cases hbg : bc < g
      · simp only [List.cons_append, bestLoop, hs, if_pos hbg]
        exact ih fd₀ l₂ M (some fd.id) g fd.sequence h1' h0 h2 hgM
      · simp only [List.cons_append, bestLoop, hs, if_neg hbg]
        exact ih fd₀ l₂ M bm bc bs h1' h0 h2 hbc

theorem le_maxScore (s : FrameData → Option Nat) :
    ∀ (l : List FrameData) (fd : FrameData), fd ∈ l → (s fd).getD 0 ≤ maxScore s l := by
  intro l
  induction l with
  | nil => intro fd h; cases h
  | cons x rest ih =>
    intro fd h
    have hcons : maxScore s (x :: rest) = max ((s x).getD 0) (maxScore s rest) := rfl
    rcases List.mem_cons.mp h with h | h
    · subst h; rw [hcons]; exact Nat.le_max_left _ _
    · rw [hcons]; exact le_trans (ih fd h) (Nat.le_max_right _ _)

theorem maxScore_le (s : FrameData → Option Nat) :
    ∀ (l : List FrameData) (M : Nat), (∀ fd ∈ l, (s fd).getD 0 ≤ M) → maxScore s l ≤ M := by
  intro l
  induction l with
  | nil => intro M _; exact Nat.zero_le M
  | cons x rest ih =>
    intro M h
    have hcons : maxScore s (x :: rest) = max ((s x).getD 0) (maxScore s rest) := rfl
    rw [hcons]
    exact max_le (h x (List.mem_cons_self x rest))
      (ih M (fun fd hfd => h fd (List.mem_cons_of_mem _ hfd)))

/-- C3: `localize` returns the sentinel `(none, 0, none)` when the live
descriptor set is absent, when the live keypoint count is below 10 (whatever
the store holds), and when the store holds no frames for the location. -/
theorem C3_localize_sentinel :
    (∀ (m : Desc → Desc → List ℚ) (kp : Nat) (fs : List FrameData),
        localize m kp none fs = (none, 0, none)) ∧
    (∀ (m : Desc → Desc → List ℚ) (kp : Nat) (cd : Desc) (fs : List FrameData),
        kp < 10 → localize m kp (some cd) fs = (none, 0, none)) ∧
    (∀ (m : Desc → Desc → List ℚ) (kp : Nat) (cd : Option Desc),
        localize m kp cd [] = (none, 0, none)) := by
  refine ⟨fun m kp fs => rfl, fun m kp cd fs h => ?_, fun m kp cd => ?_⟩
  · simp [localize, h]
  · cases cd with
    | none => rfl
    | some cd =>
      by_cases h : kp < 10 <;> simp [localize, h]

/-- Witness for C3 at a concrete low-keypoint input. -/
theorem C3_witness :
    localize (fun _ _ => []) 5 (some []) [⟨1, 0, some []⟩] = (none, 0, none) :=
  C3_localize_sentinel.2.1 (fun _ _ => []) 5 [] [⟨1, 0, some []⟩] (by decide)

/-- C1: over any stored frame set split as `l₁ ++ fd₀ :: l₂` where `fd₀` is
the first frame attaining the globally highest match score `M` (all earlier
frames score strictly below `M`, all later ones at most `M`), `localize` with
at least 10 live keypoints returns `fd₀`'s id, `M`, and `fd₀`'s sequence index
when `M ≥ 30`, and `(none, M, none)` when `M < 30`; and lowering the score of
any frame other than `fd₀` (keeping `fd₀`'s score) leaves the whole result
unchanged. -/
theorem C1_localize_best_match :
    ∀ (m m' : Desc → Desc → List ℚ) (kp : Nat) (cd : Desc)
      (l₁ l₂ : List FrameData) (fd₀ : FrameData) (M : Nat),
      10 ≤ kp →
      (∀ fd ∈ l₁, scoreD m cd fd < M) →
      scoreD m cd fd₀ = M →
      (∀ fd ∈ l₂, scoreD m cd fd ≤ M) →
      (30 ≤ M →
        localize m kp (some cd) (l₁ ++ fd₀ :: l₂) = (some fd₀.id, M, some fd₀.sequence)) ∧
      (M < 30 →
        localize m kp (some cd) (l₁ ++ fd₀ :: l₂) = (none, M, none)) ∧
      ((∀ fd ∈ l₁, scoreD m' cd fd ≤ scoreD m cd fd) →
       scoreD m' cd fd₀ = M →
       (∀ fd ∈ l₂, scoreD m' cd fd ≤ scoreD m cd fd) →
       localize m' kp (some cd) (l₁ ++ fd₀ :: l₂) =
         localize m kp (some cd) (l₁ ++ fd₀ :: l₂)) := by
  intro m m' kp cd l₁ l₂ fd₀ M hkp h1 h0 h2
  have hkp' : ¬ kp < 10 := by omega
  have hne : l₁ ++ fd₀ :: l₂ ≠ [] := by
    intro h; exact absurd h (List.append_ne_nil_of_right_ne_nil l₁ (List.cons_ne_nil _ _))
  have key : ∀ (mm : Desc → Desc → List ℚ),
      (∀ fd ∈ l₁, scoreD mm cd fd < M) →
      scoreD mm cd fd₀ = M →
      (∀ fd ∈ l₂, scoreD mm cd fd ≤ M) →
      (30 ≤ M →
        localize mm kp (some cd) (l₁ ++ fd₀ :: l₂) = (some fd₀.id, M, some fd₀.sequence)) ∧
      (M < 30 →
        localize mm kp (some cd) (l₁ ++ fd₀ :: l₂) = (none, M, none)) := by
    intro mm g1 g0 g2
    have hcount :
        (bestLoop (frameScore mm cd) (l₁ ++ fd₀ :: l₂) (none, 0, 0)).2.1 = M := by
      rw [bestLoop_count]
      rw [Nat.zero_max]
      have hle : maxScore (frameScore mm cd) (l₁ ++ fd₀ :: l₂) ≤ M := by
        apply maxScore_le
        intro fd hfd
        rcases List.mem_append.mp hfd with h | h
        · exact le_of_lt (g1 fd h)
        · rcases List.mem_cons.mp h with h | h
          · subst h; exact le_of_eq g0
          · exact g2 fd h
      have hge : M ≤ maxScore (frameScore mm cd) (l₁ ++ fd₀ :: l₂) := by
        have hmem := le_maxScore (frameScore mm cd) (l₁ ++ fd₀ :: l₂) fd₀
          (List.mem_append.mpr (Or.inr (List.mem_cons_self _ _)))
        have g0' : (frameScore mm cd fd₀).getD 0 = M := g0
        omega
      omega
    constructor
    · intro hM
      have hbest :
          bestLoop (frameScore mm cd) (l₁ ++ fd₀ :: l₂) (none, 0, 0) =
            (some fd₀.id, M, fd₀.sequence) :=
        bestLoop_argmax (frameScore mm cd) l₁ fd₀ l₂ M none 0 0 g1 g0 g2 (by omega)
      simp only [localize, if_neg hkp', if_neg hne, hbest, if_pos hM]
    · intro hM
      have hM' : ¬ 30 ≤ (bestLoop (frameScore mm cd) (l₁ ++ fd₀ :: l₂) (none, 0, 0)).2.1 := by
        rw [hcount]; omega
      simp only [localize, if_neg hkp', if_neg hne]
      rw [if_neg hM', hcount]
  refine ⟨(key m h1 h0 h2).1, (key m h1 h0 h2).2, ?_⟩
  intro j1 j0 j2
  have k1 : ∀ fd ∈ l₁, scoreD m' cd fd < M :=
    fun fd hfd => lt_of_le_of_lt (j1 fd hfd) (h1 fd hfd)
  have k2 : ∀ fd ∈ l₂, scoreD m' cd fd ≤ M :=
    fun fd hfd => le_trans (j2 fd hfd) (h2 fd hfd)
  by_cases hM : 30 ≤ M
  · rw [(key m' k1 j0 k2).1 hM, (key m h1 h0 h2).1 hM]
  · rw [(key m' k1 j0 k2).2 (by omega), (key m h1 h0 h2).2 (by omega)]

/-- Witness for C1 at a concrete store of three frames, the middle one being
the unique best match with score 31. -/
theorem C1_witness :
    localize (fun _ _ => List.replicate 31 0) 12 (some [])
        [⟨1, 0, none⟩, ⟨5, 1, some []⟩, ⟨9, 2, some []⟩] = (some 5, 31, some 1) :=
  (C1_localize_best_match (fun _ _ => List.replicate 31 0) (fun _ _ => List.replicate 31 0)
      12 [] [⟨1, 0, none⟩] [⟨9, 2, some []⟩] ⟨5, 1, some []⟩ 31
      (by decide) (by decide) (by decide) (by decide)).1 (by decide)

/-! ## Properties of the confidence normalizer -/

theorem roundHalfEven_intCast (z : ℤ) : roundHalfEven (z : ℚ) = z := by
  simp only [roundHalfEven, Int.floor_intCast, sub_self]
  norm_num

theorem floor_le_roundHalfEven (q : ℚ) : ⌊q⌋ ≤ roundHalfEven q := by
  simp only [roundHalfEven]
  split_ifs <;> omega

theorem roundHalfEven_le_ceil (q : ℚ) : roundHalfEven q ≤ ⌈q⌉ := by
  have hfc : ⌊q⌋ ≤ ⌈q⌉ := Int.floor_le_ceil q
  have hkey : ¬ (q - ⌊q⌋ < 1/2) → ⌊q⌋ + 1 ≤ ⌈q⌉ := by
    intro h
    have hlt : (⌊q⌋ : ℚ) < q := by
      have := Int.floor_le q
      by_contra hc
      push_neg at hc
      have : q = (⌊q⌋ : ℚ) := le_antisymm hc this
      rw [this] at h
      simp at h
    have := Int.lt_ceil.mpr hlt
    omega
  simp only [roundHalfEven]
  split_ifs with h1 h2 h3
  · exact hfc
  · exact hkey h1
  · exact hfc
  · exact hkey h1

theorem roundHalfEven_nonneg (q : ℚ) (h : 0 ≤ q) : 0 ≤ roundHalfEven q :=
  le_trans (Int.floor_nonneg.mpr h) (floor_le_roundHalfEven q)

/-- Every normalized confidence value is an integer number of tenths between
0 and 100. -/
theorem cap_confidence_form (v : ℚ) :
    ∃ z : ℤ, cap_confidence v = (z : ℚ) / 10 ∧ 0 ≤ z ∧ z ≤ 1000 := by
  have hx0 : (0 : ℚ) ≤ max 0 (min (if 0 ≤ v ∧ v ≤ 1 then v * 100 else v) 100) :=
    le_max_left _ _
  have hx100 : max 0 (min (if 0 ≤ v ∧ v ≤ 1 then v * 100 else v) 100) ≤ 100 :=
    max_le (by norm_num) (min_le_right _ _)
  refine ⟨roundHalfEven (10 * max 0 (min (if 0 ≤ v ∧ v ≤ 1 then v * 100 else v) 100)),
    rfl, ?_, ?_⟩
  · exact roundHalfEven_nonneg _ (by positivity)
  · have : roundHalfEven (10 * max 0 (min (if 0 ≤ v ∧ v ≤ 1 then v * 100 else v) 100)) ≤
        ⌈(10 : ℚ) * max 0 (min (if 0 ≤ v ∧ v ≤ 1 then v * 100 else v) 100)⌉ :=
      roundHalfEven_le_ceil _
    have hc : ⌈(10 : ℚ) * max 0 (min (if 0 ≤ v ∧ v ≤ 1 then v * 100 else v) 100)⌉ ≤ 1000 :=
      Int.ceil_le.mpr (by push_cast; linarith)
    omega

theorem round1_tenths (z : ℤ) : round1 ((z : ℚ) / 10) = (z : ℚ) / 10 := by
  have h10 : (10 : ℚ) * ((z : ℚ) / 10) = (z : ℚ) := by field_simp
  rw [round1, h10, roundHalfEven_intCast]

/-- C7: the confidence normalizer scales `[0, 1]` values by 100, clamps
everything else into `[0, 100]`, rounds to one decimal, and is idempotent on
any already-normalized output strictly greater than 1. -/
theorem C7_cap_confidence_normalization :
    (∀ v : ℚ, 0 ≤ v → v ≤ 1 → cap_confidence v = round1 (v * 100)) ∧
    (∀ v : ℚ, ¬ (0 ≤ v ∧ v ≤ 1) → cap_confidence v = round1 (max 0 (min v 100))) ∧
    (∀ v : ℚ, 1 < cap_confidence v →
        cap_confidence (cap_confidence v) = cap_confidence v) := by
  refine ⟨fun v h0 h1 => ?_, fun v h => ?_, fun v h1 => ?_⟩
  · simp only [cap_confidence, if_pos (And.intro h0 h1)]
    have hmin : min (v * 100) 100 = v * 100 := min_eq_left (by linarith)
    have hmax : max 0 (v * 100) = v * 100 := max_eq_right (by positivity)
    rw [hmin, hmax]
  · simp only [cap_confidence, if_neg h]
  · obtain ⟨z, hz, hz0, hz1000⟩ := cap_confidence_form v
    set y := cap_confidence v with hy
    have hle100 : y ≤ 100 := by
      rw [hz, div_le_iff₀ (by norm_num : (0:ℚ) < 10)]
      have hzq : (z : ℚ) ≤ 1000 := by exact_mod_cast hz1000
      linarith
    have hnotin : ¬ (0 ≤ y ∧ y ≤ 1) := by
      intro hc
      linarith [hc.2]
    show cap_confidence y = y
    simp only [cap_confidence, if_neg hnotin]
    have hmin : min y 100 = y := min_eq_left hle100
    have hmax : max 0 (min y 100) = y := by
      rw [hmin]
      exact max_eq_right (by linarith)
    rw [hmax, hz, round1_tenths]

/-- Witness for C7: scaling, clamping and idempotence at the concrete raw
values 0.45, 250 and 31. -/
theorem C7_witness :
    cap_confidence (45/100) = round1 ((45/100) * 100) ∧
    cap_confidence 250 = round1 (max 0 (min 250 100)) ∧
    cap_confidence (cap_confidence 31) = cap_confidence 31 := by
  refine ⟨C7_cap_confidence_normalization.1 (45/100) (by norm_num) (by norm_num),
    C7_cap_confidence_normalization.2.1 250 (by norm_num), ?_⟩
  apply C7_cap_confidence_normalization.2.2 31
  have h31 : cap_confidence 31 = 31 := by
    norm_num [cap_confidence, round1, roundHalfEven]
  rw [h31]
  norm_num

/-! ## Session state machine claims -/

/-- Counterexample to C6 as stated: at the last step index the instruction the
code derives is the string "Destination reached", which is not the string
"destination reached". -/
theorem C6_counterexample :
    (⟨[1, 2], 1⟩ : NavState).current_path.length = 2 ∧
    (⟨[1, 2], 1⟩ : NavState).current_step = 2 - 1 ∧
    get_next_instruction ⟨[1, 2], 1⟩ = "Destination reached" ∧
    get_next_instruction ⟨[1, 2], 1⟩ ≠ "destination reached" := by
  refine ⟨rfl, rfl, rfl, ?_⟩
  decide

/-- C6 (amended: the arrival string is capitalized as "Destination reached"
and the forward instruction is "Continue forward 0.7 meters"): for a path of
length `L ≥ 1`, the derived instruction at step index `L - 1` is exactly
"Destination reached", and at any smaller step index it is exactly the fixed
forward movement "Continue forward 0.7 meters", independent of any distance
data. -/
theorem C6_instruction_derivation :
    ∀ (st : NavState) (L : Nat), st.current_path.length = L → 1 ≤ L →
      (st.current_step = L - 1 → get_next_instruction st = "Destination reached") ∧
      (st.current_step < L - 1 → get_next_instruction st = "Continue forward 0.7 meters") := by
  intro st L hL h1
  have hne : st.current_path ≠ [] := by
    intro h
    rw [h] at hL
    simp at hL
    omega
  constructor
  · intro hs
    unfold get_next_instruction
    split_ifs with ha hb
    · rfl
    · rfl
    · exact absurd (by omega : st.current_step = st.current_path.length - 1) hb
  · intro hs
    unfold get_next_instruction
    split_ifs with ha hb
    · rcases ha with h | h
      · exact absurd h hne
      · omega
    · omega
    · rfl

/-- Witness for C6 at a concrete three-node path. -/
theorem C6_witness :
    get_next_instruction ⟨[1, 2, 3], 2⟩ = "Destination reached" ∧
    get_next_instruction ⟨[1, 2, 3], 0⟩ = "Continue forward 0.7 meters" :=
  ⟨(C6_instruction_derivation ⟨[1, 2, 3], 2⟩ 3 rfl (by decide)).1 (by decide),
   (C6_instruction_derivation ⟨[1, 2, 3], 0⟩ 3 rfl (by decide)).2 (by decide)⟩

/-- Counterexample to C4 as stated: from a state whose mode is navigating (not
idle), the start-mapping command still transitions the mode to mapping. -/
theorem C4_counterexample :
    (⟨Mode.navigating, none, 0, none, some "kitchen", [], 0⟩ : SessionState).mode ≠ Mode.idle ∧
    (start_mapping "hall"
        ⟨Mode.navigating, none, 0, none, some "kitchen", [], 0⟩).2.mode = Mode.mapping := by
  exact ⟨by decide, rfl⟩

/-- C4 (amended: the commands guard only on destination existence, never on
the current mode): from every session state, start-mapping sets the mode to
mapping, and start-navigation with an existing destination sets the mode to
navigating; each command leaves the mode equal to exactly one of the two
active modes, never the other. -/
theorem C4_start_commands_unconditional :
    (∀ (st : SessionState) (loc : String),
        (start_mapping loc st).2.mode = Mode.mapping) ∧
    (∀ (st : SessionState) (locs : List String) (d : String),
        d ∈ locs → (start_navigation locs (some d) st).2.mode = Mode.navigating) ∧
    (∀ (st : SessionState) (loc : String),
        (start_mapping loc st).2.mode ≠ Mode.navigating) ∧
    (∀ (st : SessionState) (locs : List String) (d : String),
        d ∈ locs → (start_navigation locs (some d) st).2.mode ≠ Mode.mapping) := by
  refine ⟨fun st loc => rfl, fun st locs d h => ?_, fun st loc => ?_, fun st locs d h => ?_⟩
  · simp [start_navigation, h]
  · show Mode.mapping ≠ Mode.navigating
    decide
  · simp [start_navigation, h]

/-- Witness for C4 (amended) at a concrete state and stored location list. -/
theorem C4_witness :
    (start_navigation ["kitchen"] (some "kitchen")
        ⟨Mode.mapping, none, 0, none, none, [], 0⟩).2.mode = Mode.navigating :=
  C4_start_commands_unconditional.2.1 ⟨Mode.mapping, none, 0, none, none, [], 0⟩
    ["kitchen"] "kitchen" (by simp)

/-- Counterexample to C5 as stated: stopping navigation from a state with step
index 5 leaves the step index at 5 instead of clearing it to 0. -/
theorem C5_counterexample :
    (⟨Mode.navigating, none, 0, none, some "kitchen", [3, 4], 5⟩ : SessionState).mode
        = Mode.navigating ∧
    (stop_navigation
        ⟨Mode.navigating, none, 0, none, some "kitchen", [3, 4], 5⟩).2.nav_step = 5 ∧
    (stop_navigation
        ⟨Mode.navigating, none, 0, none, some "kitchen", [3, 4], 5⟩).2.nav_step ≠ 0 := by
  exact ⟨rfl, rfl, by decide⟩

/-- C5 (amended: the stop command does not touch the navigator's step index):
in navigating mode, the stop command reports success, forces the mode to idle,
clears the destination and the planned path, and leaves every other field
(including the step index) unchanged; in any other mode it reports an error
and changes nothing. -/
theorem C5_stop_navigation_behavior :
    (∀ st : SessionState, st.mode = Mode.navigating →
        stop_navigation st =
          (⟨"success", "Navigation stopped"⟩,
           { st with mode := Mode.idle, destination := none, nav_path := [] })) ∧
    (∀ st : SessionState, st.mode ≠ Mode.navigating →
        stop_navigation st = (⟨"error", "Not in navigation mode"⟩, st)) := by
  constructor <;> intro st h <;> simp [stop_navigation, h]

/-- Witness for C5 (amended) at concrete navigating and idle states. -/
theorem C5_witness :
    stop_navigation ⟨Mode.navigating, none, 0, none, some "kitchen", [3, 4], 5⟩ =
      (⟨"success", "Navigation stopped"⟩, ⟨Mode.idle, none, 0, none, none, [], 5⟩) ∧
    stop_navigation ⟨Mode.idle, none, 0, none, none, [], 0⟩ =
      (⟨"error", "Not in navigation mode"⟩, ⟨Mode.idle, none, 0, none, none, [], 0⟩) :=
  ⟨C5_stop_navigation_behavior.1 ⟨Mode.navigating, none, 0, none, some "kitchen", [3, 4], 5⟩ rfl,
   C5_stop_navigation_behavior.2 ⟨Mode.idle, none, 0, none, none, [], 0⟩ (by decide)⟩

/-- C8: requesting navigation to a destination that is not a stored location
(or giving no destination at all) returns the NotFound error result and leaves
the whole session state, in particular the mode, unchanged. -/
theorem C8_start_navigation_notfound :
    ∀ (st : SessionState) (locs : List String) (dest : Option String),
      (∀ d, dest = some d → d ∉ locs) →
      start_navigation locs dest st = (⟨"error", "Location not found"⟩, st) ∧
      (start_navigation locs dest st).2.mode = st.mode := by
  intro st locs dest h
  cases dest with
  | none => exact ⟨rfl, rfl⟩
  | some d =>
    have hd : d ∉ locs := h d rfl
    constructor <;> simp [start_navigation, hd]

/-- Witness for C8 at a concrete idle state and absent destination. -/
theorem C8_witness :
    start_navigation ["kitchen"] (some "garage") ⟨Mode.idle, none, 0, none, none, [], 0⟩ =
      (⟨"error", "Location not found"⟩, ⟨Mode.idle, none, 0, none, none, [], 0⟩) :=
  (C8_start_navigation_notfound ⟨Mode.idle, none, 0, none, none, [], 0⟩ ["kitchen"]
      (some "garage")
      (fun d hd => by
        cases Option.some.inj hd
        simp)).1

/-! ## Landmark store claims -/

/-- C9: a mapping capture is persisted only when descriptors are present and
the keypoint count exceeds 50; each `save_frame` adds exactly one frame row
and one graph node, no edges at sequence 0, and exactly the bidirectional pair
of weight-0.7 edges to the previous node at a positive sequence; mapping the
three accepted captures of the kitchen scenario from an empty store yields 3
frames, 3 nodes and 4 edges, all of weight 0.7, with the frame counter at 3. -/
theorem C9_mapping_persistence :
    (∀ (locId seq : Nat) (st : Store),
        (save_frame locId seq st).2.frames.length = st.frames.length + 1 ∧
        (save_frame locId seq st).2.nodes.length = st.nodes.length + 1 ∧
        (seq = 0 → (save_frame locId seq st).2.edges = st.edges) ∧
        (∀ prev : NodeRec, 0 < seq → findPrevNode st.nodes locId seq = some prev →
          (save_frame locId seq st).2.edges =
            st.edges ++ [⟨prev.id, st.nextNodeId, 7/10⟩, ⟨st.nextNodeId, prev.id, 7/10⟩])) ∧
    (∀ (cap : Capture) (s : Store × Nat), ¬ (cap.descriptors.isSome ∧ 50 < cap.kpCount) →
        mapping_step 1 s cap = s) ∧
    ((mapping_run 1 [⟨80, some []⟩, ⟨60, some []⟩, ⟨55, some []⟩]
        (emptyStore, 0)).1.frames.length = 3 ∧
     (mapping_run 1 [⟨80, some []⟩, ⟨60, some []⟩, ⟨55, some []⟩]
        (emptyStore, 0)).1.nodes.length = 3 ∧
     (mapping_run 1 [⟨80, some []⟩, ⟨60, some []⟩, ⟨55, some []⟩]
        (emptyStore, 0)).1.edges.length = 4 ∧
     (∀ e ∈ (mapping_run 1 [⟨80, some []⟩, ⟨60, some []⟩, ⟨55, some []⟩]
        (emptyStore, 0)).1.edges, e.distance = 7/10) ∧
     (mapping_run 1 [⟨80, some []⟩, ⟨60, some []⟩, ⟨55, some []⟩] (emptyStore, 0)).2 = 3) := by
  refine ⟨fun locId seq st => ⟨by simp [save_frame], by simp [save_frame], ?_, ?_⟩,
    fun cap s h => ?_, ?_, ?_, ?_, ?_, rfl⟩
  · intro h0
    simp [save_frame, h0]
  · intro prev hpos hfind
    have hfind' : findPrevNode (st.nodes ++ [⟨st.nextNodeId, locId, st.nextFrameId, seq⟩])
        locId seq = some prev := by
      unfold findPrevNode at hfind ⊢
      rw [List.find?_append, hfind]
      rfl
    simp only [save_frame, if_pos hpos, hfind']
  · simp only [mapping_step, if_neg h]
  · rfl
  · rfl
  · rfl
  · have hedges : (mapping_run 1 [⟨80, some []⟩, ⟨60, some []⟩, ⟨55, some []⟩]
        (emptyStore, 0)).1.edges =
        [⟨1, 2, 7/10⟩, ⟨2, 1, 7/10⟩, ⟨2, 3, 7/10⟩, ⟨3, 2, 7/10⟩] := rfl
    rw [hedges]
    intro e he
    simp only [List.mem_cons, List.not_mem_nil, or_false] at he
    rcases he with rfl | rfl | rfl | rfl <;> rfl

/-- Witness for C9 at a concrete one-frame store: saving the frame of
sequence 1 appends the bidirectional weight-0.7 edge pair to the node at
sequence 0. -/
theorem C9_witness :
    (save_frame 1 1 ⟨[⟨1, 1, 0⟩], [⟨1, 1, 1, 0⟩], [], 2, 2⟩).2.edges =
      [⟨1, 2, 7/10⟩, ⟨2, 1, 7/10⟩] := by
  have h := (C9_mapping_persistence.1 1 1 ⟨[⟨1, 1, 0⟩], [⟨1, 1, 1, 0⟩], [], 2, 2⟩).2.2.2
    ⟨1, 1, 1, 0⟩ (by decide) rfl
  simpa using h

/-! ## Route planner claims -/

theorem astarLoop_zero (adj : Nat → List (Nat × ℚ)) (pos : Nat → Nat) (goal : Nat)
    (st : AStarState) : astarLoop adj pos goal 0 st = none := rfl

theorem astarLoop_succ (adj : Nat → List (Nat × ℚ)) (pos : Nat → Nat) (goal fuel : Nat)
    (st : AStarState) :
    astarLoop adj pos goal (fuel + 1) st =
      match heapMin st.openSet with
      | none => none
      | some entry =>
        if entry.2 = goal then some (reconstructPath st.cameFrom entry.2)
        else
          astarLoop adj pos goal fuel
            ((adj entry.2).foldl (relaxOne pos goal entry.2)
              { st with openSet := st.openSet.erase entry }) := rfl

theorem reconAux_eq_append (cf : List (Nat × Nat)) :
    ∀ (fuel cur : Nat) (acc : List Nat), ∃ l, reconAux cf fuel cur acc = l ++ acc := by
  intro fuel
  induction fuel with
  | zero => exact fun cur acc => ⟨[], rfl⟩
  | succ n ih =>
    intro cur acc
    cases h : List.lookup cur cf with
    | none => exact ⟨[], by simp [reconAux, h]⟩
    | some p =>
      obtain ⟨l, hl⟩ := ih p (p :: acc)
      refine ⟨l ++ [p], ?_⟩
      simp only [reconAux, h, hl, List.append_assoc, List.cons_append, List.nil_append]

theorem reconstructPath_ne_nil (cf : List (Nat × Nat)) (cur : Nat) :
    reconstructPath cf cur ≠ [] := by
  obtain ⟨l, hl⟩ := reconAux_eq_append cf (cf.length + 1) cur [cur]
  rw [reconstructPath, hl]
  simp

theorem astarLoop_some_ne_nil (adj : Nat → List (Nat × ℚ)) (pos : Nat → Nat) (goal : Nat) :
    ∀ (fuel : Nat) (st : AStarState) (p : List Nat),
      astarLoop adj pos goal fuel st = some p → p ≠ [] := by
  intro fuel
  induction fuel with
  | zero => intro st p h; exact absurd h (by simp [astarLoop_zero])
  | succ n ih =>
    intro st p h
    rw [astarLoop_succ] at h
    cases hm : heapMin st.openSet with
    | none => rw [hm] at h; exact absurd h (by simp)
    | some entry =>
      rw [hm] at h
      have h' : (if entry.2 = goal then some (reconstructPath st.cameFrom entry.2)
          else astarLoop adj pos goal n
            ((adj entry.2).foldl (relaxOne pos goal entry.2)
              { st with openSet := st.openSet.erase entry })) = some p := h
      by_cases hg : entry.2 = goal
      · rw [if_pos hg] at h'
        have hp := Option.some.inj h'
        rw [← hp]
        exact reconstructPath_ne_nil st.cameFrom entry.2
      · rw [if_neg hg] at h'
        exact ih _ p h' 

/-- C10: `plan_route` is atomic on the navigator state: with no nodes, or
when A* finds no path, it returns `none` and leaves the state untouched; when
A* returns a path, it returns that (necessarily nonempty) path and the state
holding it with step index reset to 0. -/
theorem C10_plan_route_atomic :
    ∀ (nodes : List (Nat × Nat)) (edges : List (Nat × Nat × ℚ)) (st : NavState)
      (current : Nat) (destOpt : Option Nat),
      (nodes = [] → plan_route nodes edges st current destOpt = (none, st)) ∧
      (nodes ≠ [] →
        astar (buildAdj edges) (nodePos nodes) (nodes.length + 1) current
            (destOpt.getD (maxPosNode nodes)) = none →
        plan_route nodes edges st current destOpt = (none, st)) ∧
      (∀ p, nodes ≠ [] →
        astar (buildAdj edges) (nodePos nodes) (nodes.length + 1) current
            (destOpt.getD (maxPosNode nodes)) = some p →
        plan_route nodes edges st current destOpt = (some p, ⟨p, 0⟩) ∧ p ≠ []) := by
  intro nodes edges st current destOpt
  refine ⟨fun h => by simp [plan_route, h], fun hne hnone => ?_, fun p hne hsome => ?_⟩
  · simp only [plan_route, if_neg hne, hnone]
  · have hp : p ≠ [] := astarLoop_some_ne_nil _ _ _ _ _ p hsome
    constructor
    · simp only [plan_route, if_neg hne, hsome, if_neg hp]
    · exact hp

/-- Witness for C10 at the empty node list. -/
theorem C10_witness :
    plan_route [] [] ⟨[7], 2⟩ 0 none = (none, ⟨[7], 2⟩) :=
  (C10_plan_route_atomic [] [] ⟨[7], 2⟩ 0 none).1 rfl

/-! ## A* on path graphs: generic helper lemmas -/

theorem nat_dist_def (a b : Nat) : Nat.dist a b = a - b + (b - a) := rfl

theorem range'_concat_one (s n : Nat) :
    List.range' s (n + 1) = List.range' s n ++ [s + n] := by
  have h := @List.range'_concat 1 s n
  simpa using h

theorem lookup_cons_self (k v : Nat) (l : List (Nat × Nat)) :
    List.lookup k ((k, v) :: l) = some v := by
  simp [List.lookup]

theorem lookup_cons_ne (k k' v : Nat) (l : List (Nat × Nat)) (h : k ≠ k') :
    List.lookup k ((k', v) :: l) = List.lookup k l := by
  have hb : (k == k') = false := beq_eq_false_iff_ne.mpr h
  simp [List.lookup, hb]

theorem heapMin_eq_none_iff (l : List (WithTop ℚ × Nat)) :
    heapMin l = none ↔ l = [] := by
  cases l <;> simp [heapMin]

theorem foldl_min_mem (xs : List (WithTop ℚ × Nat)) :
    ∀ a : WithTop ℚ × Nat,
      xs.foldl (fun m y => if entryLtb y m then y else m) a ∈ a :: xs := by
  induction xs with
  | nil => intro a; exact List.mem_cons_self a []
  | cons y ys ih =>
    intro a
    simp only [List.foldl_cons]
    rcases List.mem_cons.mp (ih (if entryLtb y a then y else a)) with h | h
    · rw [h]
      by_cases hyb : entryLtb y a
      · simp [hyb]
      · simp [hyb]
    · exact List.mem_cons_of_mem _ (List.mem_cons_of_mem _ h)

theorem heapMin_mem (l : List (WithTop ℚ × Nat)) (x : WithTop ℚ × Nat)
    (h : heapMin l = some x) : x ∈ l := by
  cases l with
  | nil => simp [heapMin] at h
  | cons a xs =>
    simp only [heapMin, Option.some.injEq] at h
    rw [← h]
    exact foldl_min_mem xs a

theorem erase_map_snd (l : List (WithTop ℚ × Nat)) (x : WithTop ℚ × Nat)
    (hx : x ∈ l) (hnd : (l.map Prod.snd).Nodup) :
    ((l.erase x).map Prod.snd).Nodup ∧
      (∀ n, n ∈ (l.erase x).map Prod.snd ↔ n ∈ l.map Prod.snd ∧ n ≠ x.2) := by
  obtain ⟨l₁, l₂, hxl₁, hsplit, herase⟩ := List.exists_erase_eq hx
  constructor
  · exact List.Nodup.sublist (List.Sublist.map _ (List.erase_sublist x l)) hnd
  · intro n
    rw [hsplit] at hnd
    rw [herase, hsplit]
    have hx2 : x.2 ∉ l₁.map Prod.snd ∧ x.2 ∉ l₂.map Prod.snd := by
      simp only [List.map_append, List.map_cons, List.nodup_append, List.nodup_cons] at hnd
      exact ⟨fun hmem => hnd.2.2 hmem (List.mem_cons_self _ _), hnd.2.1.1⟩
    simp only [List.map_append, List.map_cons, List.mem_append, List.mem_cons]
    constructor
    · rintro (h | h)
      · exact ⟨Or.inl h, fun he => hx2.1 (he ▸ h)⟩
      · exact ⟨Or.inr (Or.inr h), fun he => hx2.2 (he ▸ h)⟩
    · rintro ⟨h | h | h, hne⟩
      · exact Or.inl h
      · exact absurd h hne
      · exact Or.inr h

/-! ## A* on path graphs: the relaxation steps -/

theorem relaxOne_eq (pos : Nat → Nat) (goal current : Nat) (st : AStarState)
    (nb : Nat) (d : ℚ) :
    relaxOne pos goal current st (nb, d) =
      if st.gScore current + ((d : ℚ) : WithTop ℚ) < st.gScore nb then
        { openSet :=
            if nb ∈ st.openSet.map Prod.snd then st.openSet
            else st.openSet ++ [(st.gScore current + ((d : ℚ) : WithTop ℚ) +
              ((heuristic pos nb goal : ℚ) : WithTop ℚ), nb)]
          cameFrom := (nb, current) :: st.cameFrom
          gScore := fun n => if n = nb then st.gScore current + ((d : ℚ) : WithTop ℚ)
            else st.gScore n
          fScore := fun n => if n = nb then st.gScore current + ((d : ℚ) : WithTop ℚ) +
              ((heuristic pos nb goal : ℚ) : WithTop ℚ) else st.fScore n }
      else st := rfl

theorem ids_ne {ids : Nat → Nat} {N : Nat}
    (hinj : ∀ i, i < N → ∀ j, j < N → ids i = ids j → i = j)
    {i j : Nat} (hi : i < N) (hj : j < N) (hij : i ≠ j) : ids i ≠ ids j :=
  fun h => hij (hinj i hi j hj h)

theorem relax_up {ids : Nat → Nat} {N ps pt : Nat} {w : ℚ} (pos : Nat → Nat) (goal : Nat)
    (hinj : ∀ i, i < N → ∀ j, j < N → ids i = ids j → i = j) (hw : 0 ≤ w)
    {st : AStarState} {P : Finset Nat} {lo hi c : Nat}
    (hmid : MidInv ids N ps pt w st P lo hi c) (hup : c + 1 < N) :
    ∃ hi', hi ≤ hi' ∧ c + 1 ≤ hi' ∧
      MidInv ids N ps pt w (relaxOne pos goal (ids c) st (ids (c + 1), w)) P lo hi' c := by
  have hcN : c < N := lt_of_le_of_lt hmid.c_hi hmid.hi_lt
  have hgc : st.gScore (ids c) = (((Nat.dist c ps : ℚ) * w : ℚ) : WithTop ℚ) :=
    hmid.g_in c hmid.c_lo hmid.c_hi
  have hclo := hmid.c_lo
  have hchi2 := hmid.c_hi
  have hhiN := hmid.hi_lt
  have hpshi := hmid.le_hi
  have hlops := hmid.lo_le
  by_cases hfin : c + 1 ≤ hi
  · have hgn : st.gScore (ids (c + 1)) = (((Nat.dist (c + 1) ps : ℚ) * w : ℚ) : WithTop ℚ) :=
      hmid.g_in (c + 1) (by omega) hfin
    have hdist : Nat.dist (c + 1) ps ≤ Nat.dist c ps + 1 := by
      simp only [nat_dist_def]; omega
    have hq : ((Nat.dist (c + 1) ps : ℚ) * w) ≤ (Nat.dist c ps : ℚ) * w + w := by
      have hcast : ((Nat.dist (c + 1) ps : ℚ)) ≤ (Nat.dist c ps : ℚ) + 1 := by
        exact_mod_cast hdist
      nlinarith
    have hnlt : ¬ (st.gScore (ids c) + ((w : ℚ) : WithTop ℚ) < st.gScore (ids (c + 1))) := by
      rw [hgc, hgn, ← WithTop.coe_add, WithTop.coe_lt_coe]
      exact not_lt.mpr hq
    refine ⟨hi, le_rfl, hfin, ?_⟩
    rw [relaxOne_eq, if_neg hnlt]
    exact hmid
  · have hc_hi : c = hi := by
      have := hmid.c_hi; omega
    have hgn : st.gScore (ids (c + 1)) = ⊤ := hmid.g_out (c + 1) hup (Or.inr (by omega))
    have hps_le_c : ps ≤ c := by
      have := hmid.le_hi; omega
    have hlolec : lo ≤ c := hmid.c_lo
    have hlt : st.gScore (ids c) + ((w : ℚ) : WithTop ℚ) < st.gScore (ids (c + 1)) := by
      rw [hgc, hgn, ← WithTop.coe_add]
      exact WithTop.coe_lt_top _
    have hdist1 : Nat.dist (c + 1) ps = Nat.dist c ps + 1 := by
      simp only [nat_dist_def]; omega
    have hnotopen : ¬ (ids (c + 1) ∈ st.openSet.map Prod.snd) := by
      intro hmem
      obtain ⟨i, hilo, hihi, hiP, hic, hi_eq⟩ := (hmid.open_iff _).mp hmem
      have : c + 1 = i := hinj (c + 1) hup i (by omega) hi_eq
      omega
    refine ⟨c + 1, by omega, le_rfl, ?_⟩
    rw [relaxOne_eq, if_pos hlt, if_neg hnotopen]
    refine
      { lo_le := hmid.lo_le
        le_hi := by omega
        hi_lt := hup
        g_in := ?_
        g_out := ?_
        cf_up := ?_
        cf_dn := ?_
        cf_ps := ?_
        cf_len := ?_
        P_lo := hmid.P_lo
        P_hi := fun p hp => by have := hmid.P_hi p hp; omega
        pt_not := hmid.pt_not
        P_up := fun p hp h => by have := hmid.P_up p hp h; omega
        P_dn := hmid.P_dn
        c_lo := hmid.c_lo
        c_hi := by omega
        c_not := hmid.c_not
        open_iff := ?_
        open_nodup := ?_ }
    · intro i h1 h2
      by_cases hi2 : i = c + 1
      · subst hi2
        simp only [eq_self_iff_true, if_true]
        rw [hgc, ← WithTop.coe_add, WithTop.coe_eq_coe, hdist1]
        push_cast
        ring
      · have hle : i ≤ hi := by omega
        have hne : ids i ≠ ids (c + 1) := ids_ne hinj (by omega) hup hi2
        simp only [if_neg hne]
        exact hmid.g_in i h1 hle
    · intro i hiN hout
      have hne : ids i ≠ ids (c + 1) := ids_ne hinj hiN hup (by omega)
      simp only [if_neg hne]
      exact hmid.g_out i hiN (by omega)
    · intro i h1 h2
      by_cases hi2 : i = c + 1
      · subst hi2
        rw [lookup_cons_self]
        rfl
      · have hne : ids i ≠ ids (c + 1) := ids_ne hinj (by omega) hup hi2
        rw [lookup_cons_ne _ _ _ _ hne]
        exact hmid.cf_up i h1 (by omega)
    · intro i h1 h2
      have hne : ids i ≠ ids (c + 1) := ids_ne hinj (by omega) hup (by omega)
      rw [lookup_cons_ne _ _ _ _ hne]
      exact hmid.cf_dn i h1 h2
    · have hne : ids ps ≠ ids (c + 1) := ids_ne hinj (by omega) hup (by omega)
      rw [lookup_cons_ne _ _ _ _ hne]
      exact hmid.cf_ps
    · simp only [List.length_cons, hmid.cf_len]
      omega
    · intro n
      simp only [List.map_append, List.map_cons, List.map_nil, List.mem_append,
        List.mem_cons, List.not_mem_nil, or_false]
      constructor
      · rintro (h | h)
        · obtain ⟨i, hilo, hihi, hiP, hic, hi_eq⟩ := (hmid.open_iff n).mp h
          exact ⟨i, hilo, by omega, hiP, hic, hi_eq⟩
        · refine ⟨c + 1, by omega, le_rfl, ?_, by omega, h⟩
          intro hp
          have := hmid.P_hi _ hp
          omega
      · rintro ⟨i, hilo, hihi, hiP, hic, hi_eq⟩
        by_cases hicase : i = c + 1
        · subst hicase
          exact Or.inr hi_eq
        · exact Or.inl ((hmid.open_iff n).mpr ⟨i, hilo, by omega, hiP, hic, hi_eq⟩)
    · simp only [List.map_append, List.map_cons, List.map_nil]
      rw [List.nodup_append]
      refine ⟨hmid.open_nodup, List.nodup_singleton _, ?_⟩
      intro a ha hb
      rw [List.mem_singleton] at hb
      subst hb
      exact hnotopen ha

theorem relax_dn {ids : Nat → Nat} {N ps pt : Nat} {w : ℚ} (pos : Nat → Nat) (goal : Nat)
    (hinj : ∀ i, i < N → ∀ j, j < N → ids i = ids j → i = j) (hw : 0 ≤ w)
    {st : AStarState} {P : Finset Nat} {lo hi c : Nat}
    (hmid : MidInv ids N ps pt w st P lo hi c) (hdn0 : 0 < c) :
    ∃ lo', lo' ≤ lo ∧ lo' < c ∧
      MidInv ids N ps pt w (relaxOne pos goal (ids c) st (ids (c - 1), w)) P lo' hi c := by
  have hcN : c < N := lt_of_le_of_lt hmid.c_hi hmid.hi_lt
  have hgc : st.gScore (ids c) = (((Nat.dist c ps : ℚ) * w : ℚ) : WithTop ℚ) :=
    hmid.g_in c hmid.c_lo hmid.c_hi
  have hclo := hmid.c_lo
  have hchi2 := hmid.c_hi
  have hhiN := hmid.hi_lt
  have hpshi := hmid.le_hi
  have hlops := hmid.lo_le
  by_cases hfin : lo ≤ c - 1
  · have hgn : st.gScore (ids (c - 1)) = (((Nat.dist (c - 1) ps : ℚ) * w : ℚ) : WithTop ℚ) :=
      hmid.g_in (c - 1) hfin (by omega)
    have hdist : Nat.dist (c - 1) ps ≤ Nat.dist c ps + 1 := by
      simp only [nat_dist_def]; omega
    have hq : ((Nat.dist (c - 1) ps : ℚ) * w) ≤ (Nat.dist c ps : ℚ) * w + w := by
      have hcast : ((Nat.dist (c - 1) ps : ℚ)) ≤ (Nat.dist c ps : ℚ) + 1 := by
        exact_mod_cast hdist
      nlinarith
    have hnlt : ¬ (st.gScore (ids c) + ((w : ℚ) : WithTop ℚ) < st.gScore (ids (c - 1))) := by
      rw [hgc, hgn, ← WithTop.coe_add, WithTop.coe_lt_coe]
      exact not_lt.mpr hq
    refine ⟨lo, le_rfl, by omega, ?_⟩
    rw [relaxOne_eq, if_neg hnlt]
    exact hmid
  · have hlo_c : lo = c := by omega
    have hgn : st.gScore (ids (c - 1)) = ⊤ :=
      hmid.g_out (c - 1) (by omega) (Or.inl (by omega))
    have hc_le_ps : c ≤ ps := by omega
    have hlt : st.gScore (ids c) + ((w : ℚ) : WithTop ℚ) < st.gScore (ids (c - 1)) := by
      rw [hgc, hgn, ← WithTop.coe_add]
      exact WithTop.coe_lt_top _
    have hdist1 : Nat.dist (c - 1) ps = Nat.dist c ps + 1 := by
      simp only [nat_dist_def]; omega
    have hc1 : c - 1 + 1 = c := by omega
    have hnotopen : ¬ (ids (c - 1) ∈ st.openSet.map Prod.snd) := by
      intro hmem
      obtain ⟨i, hilo, hihi, hiP, hic, hi_eq⟩ := (hmid.open_iff _).mp hmem
      have : c - 1 = i := hinj (c - 1) (by omega) i (by omega) hi_eq
      omega
    refine ⟨c - 1, by omega, by omega, ?_⟩
    rw [relaxOne_eq, if_pos hlt, if_neg hnotopen]
    refine
      { lo_le := by omega
        le_hi := hmid.le_hi
        hi_lt := hmid.hi_lt
        g_in := ?_
        g_out := ?_
        cf_up := ?_
        cf_dn := ?_
        cf_ps := ?_
        cf_len := ?_
        P_lo := fun p hp => by have := hmid.P_lo p hp; omega
        P_hi := hmid.P_hi
        pt_not := hmid.pt_not
        P_up := hmid.P_up
        P_dn := fun p hp h => by have := hmid.P_dn p hp h; omega
        c_lo := by omega
        c_hi := hmid.c_hi
        c_not := hmid.c_not
        open_iff := ?_
        open_nodup := ?_ }
    · intro i h1 h2
      by_cases hi2 : i = c - 1
      · subst hi2
        simp only [eq_self_iff_true, if_true]
        rw [hgc, ← WithTop.coe_add, WithTop.coe_eq_coe, hdist1]
        push_cast
        ring
      · have hle : lo ≤ i := by omega
        have hne : ids i ≠ ids (c - 1) := ids_ne hinj (by omega) (by omega) hi2
        simp only [if_neg hne]
        exact hmid.g_in i hle h2
    · intro i hiN hout
      have hne : ids i ≠ ids (c - 1) := ids_ne hinj hiN (by omega) (by omega)
      simp only [if_neg hne]
      exact hmid.g_out i hiN (by omega)
    · intro i h1 h2
      have hne : ids i ≠ ids (c - 1) := ids_ne hinj (by omega) (by omega) (by omega)
      rw [lookup_cons_ne _ _ _ _ hne]
      exact hmid.cf_up i h1 h2
    · intro i h1 h2
      by_cases hi2 : i = c - 1
      · subst hi2
        rw [lookup_cons_self, hc1]
      · have hne : ids i ≠ ids (c - 1) := ids_ne hinj (by omega) (by omega) hi2
        rw [lookup_cons_ne _ _ _ _ hne]
        exact hmid.cf_dn i (by omega) h2
    · have hne : ids ps ≠ ids (c - 1) := ids_ne hinj (by omega) (by omega) (by omega)
      rw [lookup_cons_ne _ _ _ _ hne]
      exact hmid.cf_ps
    · simp only [List.length_cons, hmid.cf_len]
      omega
    · intro n
      simp only [List.map_append, List.map_cons, List.map_nil, List.mem_append,
        List.mem_cons, List.not_mem_nil, or_false]
      constructor
      · rintro (h | h)
        · obtain ⟨i, hilo, hihi, hiP, hic, hi_eq⟩ := (hmid.open_iff n).mp h
          exact ⟨i, by omega, hihi, hiP, hic, hi_eq⟩
        · refine ⟨c - 1, le_rfl, by omega, ?_, by omega, h⟩
          intro hp
          have := hmid.P_lo _ hp
          omega
      · rintro ⟨i, hilo, hihi, hiP, hic, hi_eq⟩
        by_cases hicase : i = c - 1
        · subst hicase
          exact Or.inr hi_eq
        · exact Or.inl ((hmid.open_iff n).mpr ⟨i, by omega, hihi, hiP, hic, hi_eq⟩)
    · simp only [List.map_append, List.map_cons, List.map_nil]
      rw [List.nodup_append]
      refine ⟨hmid.open_nodup, List.nodup_singleton _, ?_⟩
      intro a ha hb
      rw [List.mem_singleton] at hb
      subst hb
      exact hnotopen ha

theorem relaxAll_path {ids : Nat → Nat} {N ps pt : Nat} {w : ℚ}
    (adj : Nat → List (Nat × ℚ)) (pos : Nat → Nat) (goal : Nat)
    (hinj : ∀ i, i < N → ∀ j, j < N → ids i = ids j → i = j) (hw : 0 ≤ w)
    {st : AStarState} {P : Finset Nat} {lo hi c : Nat}
    (hmid : MidInv ids N ps pt w st P lo hi c)
    (hadjc : adj (ids c) = nbrs ids N w c ∨ adj (ids c) = (nbrs ids N w c).reverse) :
    ∃ lo' hi', lo' ≤ lo ∧ hi ≤ hi' ∧ (c + 1 < N → c + 1 ≤ hi') ∧ (0 < c → lo' < c) ∧
      MidInv ids N ps pt w ((adj (ids c)).foldl (relaxOne pos goal (ids c)) st) P lo' hi' c := by
  by_cases hc1 : c + 1 < N <;> by_cases hc0 : 0 < c
  · have hn : nbrs ids N w c = [(ids (c + 1), w), (ids (c - 1), w)] := by
      simp [nbrs, hc1, hc0]
    rcases hadjc with h | h
    · rw [h, hn]
      simp only [List.foldl_cons, List.foldl_nil]
      obtain ⟨hi', hh1, hh2, hmid1⟩ := relax_up pos goal hinj hw hmid hc1
      obtain ⟨lo', hl1, hl2, hmid2⟩ := relax_dn pos goal hinj hw hmid1 hc0
      exact ⟨lo', hi', hl1, hh1, fun _ => hh2, fun _ => hl2, hmid2⟩
    · rw [h, hn]
      simp only [List.reverse_cons, List.reverse_nil, List.nil_append, List.cons_append,
        List.foldl_cons, List.foldl_nil]
      obtain ⟨lo', hl1, hl2, hmid1⟩ := relax_dn pos goal hinj hw hmid hc0
      obtain ⟨hi', hh1, hh2, hmid2⟩ := relax_up pos goal hinj hw hmid1 hc1
      exact ⟨lo', hi', hl1, hh1, fun _ => hh2, fun _ => hl2, hmid2⟩
  · have hn : nbrs ids N w c = [(ids (c + 1), w)] := by
      simp [nbrs, hc1, hc0]
    have hlist : adj (ids c) = [(ids (c + 1), w)] := by
      rcases hadjc with h | h
      · rw [h, hn]
      · rw [h, hn]; rfl
    rw [hlist]
    simp only [List.foldl_cons, List.foldl_nil]
    obtain ⟨hi', hh1, hh2, hmid1⟩ := relax_up pos goal hinj hw hmid hc1
    exact ⟨lo, hi', le_rfl, hh1, fun _ => hh2, fun h0 => absurd h0 hc0, hmid1⟩
  · have hn : nbrs ids N w c = [(ids (c - 1), w)] := by
      simp [nbrs, hc1, hc0]
    have hlist : adj (ids c) = [(ids (c - 1), w)] := by
      rcases hadjc with h | h
      · rw [h, hn]
      · rw [h, hn]; rfl
    rw [hlist]
    simp only [List.foldl_cons, List.foldl_nil]
    obtain ⟨lo', hl1, hl2, hmid1⟩ := relax_dn pos goal hinj hw hmid hc0
    exact ⟨lo', hi, hl1, le_rfl, fun h1 => absurd h1 hc1, fun _ => hl2, hmid1⟩
  · have hn : nbrs ids N w c = [] := by
      simp [nbrs, hc1, hc0]
    have hlist : adj (ids c) = [] := by
      rcases hadjc with h | h
      · rw [h, hn]
      · rw [h, hn]; rfl
    rw [hlist]
    simp only [List.foldl_nil]
    exact ⟨lo, hi, le_rfl, le_rfl, fun h1 => absurd h1 hc1, fun h0 => absurd h0 hc0, hmid⟩

theorem pop_mid {ids : Nat → Nat} {N ps pt : Nat} {w : ℚ}
    (hinj : ∀ i, i < N → ∀ j, j < N → ids i = ids j → i = j)
    {st : AStarState} {P : Finset Nat} {lo hi : Nat}
    (hinv : AInv ids N ps pt w st P lo hi)
    {entry : WithTop ℚ × Nat} (hentry : entry ∈ st.openSet) :
    ∃ c, lo ≤ c ∧ c ≤ hi ∧ c ∉ P ∧ entry.2 = ids c ∧
      MidInv ids N ps pt w { st with openSet := st.openSet.erase entry } P lo hi c := by
  have hhiN := hinv.hi_lt
  have hmem : entry.2 ∈ st.openSet.map Prod.snd := List.mem_map_of_mem Prod.snd hentry
  obtain ⟨c, hclo, hchi, hcP, hc_eq⟩ := (hinv.open_iff entry.2).mp hmem
  obtain ⟨hnd', hiff⟩ := erase_map_snd st.openSet entry hentry hinv.open_nodup
  refine ⟨c, hclo, hchi, hcP, hc_eq, ?_⟩
  refine
    { lo_le := hinv.lo_le, le_hi := hinv.le_hi, hi_lt := hinv.hi_lt
      g_in := hinv.g_in, g_out := hinv.g_out
      cf_up := hinv.cf_up, cf_dn := hinv.cf_dn, cf_ps := hinv.cf_ps, cf_len := hinv.cf_len
      P_lo := hinv.P_lo, P_hi := hinv.P_hi, pt_not := hinv.pt_not
      P_up := hinv.P_up, P_dn := hinv.P_dn
      c_lo := hclo, c_hi := hchi, c_not := hcP
      open_iff := ?_, open_nodup := hnd' }
  intro n
  rw [hiff n]
  constructor
  · rintro ⟨hn, hne⟩
    obtain ⟨i, h1, h2, h3, h4⟩ := (hinv.open_iff n).mp hn
    refine ⟨i, h1, h2, h3, ?_, h4⟩
    intro hic
    subst hic
    exact hne (by rw [h4, hc_eq])
  · rintro ⟨i, h1, h2, h3, h4, h5⟩
    refine ⟨(hinv.open_iff n).mpr ⟨i, h1, h2, h3, h5⟩, ?_⟩
    rw [h5, hc_eq]
    exact ids_ne hinj (by omega) (by omega) h4

theorem mid_to_inv {ids : Nat → Nat} {N ps pt : Nat} {w : ℚ}
    {st : AStarState} {P : Finset Nat} {lo hi c : Nat}
    (hmid : MidInv ids N ps pt w st P lo hi c)
    (hup : c + 1 < N → c + 1 ≤ hi) (hdn : 0 < c → lo < c) (hcpt : c ≠ pt) :
    AInv ids N ps pt w st (insert c P) lo hi := by
  refine
    { lo_le := hmid.lo_le, le_hi := hmid.le_hi, hi_lt := hmid.hi_lt
      g_in := hmid.g_in, g_out := hmid.g_out
      cf_up := hmid.cf_up, cf_dn := hmid.cf_dn, cf_ps := hmid.cf_ps, cf_len := hmid.cf_len
      P_lo := ?_, P_hi := ?_, pt_not := ?_, P_up := ?_, P_dn := ?_
      open_iff := ?_, open_nodup := hmid.open_nodup }
  · intro p hp
    rcases Finset.mem_insert.mp hp with rfl | hp
    · exact hmid.c_lo
    · exact hmid.P_lo p hp
  · intro p hp
    rcases Finset.mem_insert.mp hp with rfl | hp
    · exact hmid.c_hi
    · exact hmid.P_hi p hp
  · intro hpt
    rcases Finset.mem_insert.mp hpt with h | h
    · exact hcpt h.symm
    · exact hmid.pt_not h
  · intro p hp hN
    rcases Finset.mem_insert.mp hp with rfl | hp
    · exact hup hN
    · exact hmid.P_up p hp hN
  · intro p hp h0
    rcases Finset.mem_insert.mp hp with rfl | hp
    · exact hdn h0
    · exact hmid.P_dn p hp h0
  · intro n
    rw [hmid.open_iff n]
    constructor
    · rintro ⟨i, h1, h2, h3, h4, h5⟩
      refine ⟨i, h1, h2, ?_, h5⟩
      intro hmem
      rcases Finset.mem_insert.mp hmem with h | h
      · exact h4 h
      · exact h3 h
    · rintro ⟨i, h1, h2, h3, h5⟩
      exact ⟨i, h1, h2, fun hP => h3 (Finset.mem_insert_of_mem hP),
        fun hc => h3 (hc ▸ Finset.mem_insert_self c P), h5⟩

theorem astarInit_inv {ids : Nat → Nat} {N ps pt : Nat} {w : ℚ} (pos : Nat → Nat)
    (hinj : ∀ i, i < N → ∀ j, j < N → ids i = ids j → i = j) (hps : ps < N) :
    AInv ids N ps pt w (astarInit pos (ids ps) (ids pt)) ∅ ps ps := by
  refine
    { lo_le := le_rfl, le_hi := le_rfl, hi_lt := hps
      g_in := ?_, g_out := ?_
      cf_up := ?_, cf_dn := ?_, cf_ps := ?_, cf_len := ?_
      P_lo := fun p hp => absurd hp (Finset.not_mem_empty p)
      P_hi := fun p hp => absurd hp (Finset.not_mem_empty p)
      pt_not := Finset.not_mem_empty pt
      P_up := fun p hp => absurd hp (Finset.not_mem_empty p)
      P_dn := fun p hp => absurd hp (Finset.not_mem_empty p)
      open_iff := ?_, open_nodup := ?_ }
  · intro i h1 h2
    have hips : i = ps := by omega
    subst hips
    simp [astarInit, Nat.dist_self]
  · intro i hiN hout
    have hne : ids i ≠ ids ps := ids_ne hinj hiN hps (by omega)
    simp [astarInit, hne]
  · intro i h1 h2
    omega
  · intro i h1 h2
    omega
  · simp [astarInit, List.lookup]
  · simp [astarInit]
  · intro n
    simp only [astarInit, List.map_cons, List.map_nil, List.mem_cons, List.not_mem_nil,
      or_false]
    constructor
    · intro h
      exact ⟨ps, le_rfl, le_rfl, Finset.not_mem_empty ps, h⟩
    · rintro ⟨i, h1, h2, h3, h5⟩
      have : i = ps := by omega
      subst this
      exact h5
  · simp [astarInit]

theorem open_ne_nil {ids : Nat → Nat} {N ps pt : Nat} {w : ℚ}
    {st : AStarState} {P : Finset Nat} {lo hi : Nat}
    (hinv : AInv ids N ps pt w st P lo hi) (hptN : pt < N) : st.openSet ≠ [] := by
  have hlohi1 := hinv.lo_le
  have hlohi2 := hinv.le_hi
  have hx : ∃ n, n ∈ st.openSet.map Prod.snd := by
    by_cases hin : lo ≤ pt ∧ pt ≤ hi
    · exact ⟨ids pt, (hinv.open_iff _).mpr ⟨pt, hin.1, hin.2, hinv.pt_not, rfl⟩⟩
    · by_cases hcase : hi < pt
      · have hhiP : hi ∉ P := by
          intro hp
          have h1 := hinv.P_up hi hp (by omega)
          omega
        exact ⟨ids hi, (hinv.open_iff _).mpr ⟨hi, by omega, le_rfl, hhiP, rfl⟩⟩
      · have hptlo : pt < lo := by
          rcases Nat.lt_or_ge pt lo with h | h
          · exact h
          · exact absurd ⟨h, by omega⟩ hin
        have hloP : lo ∉ P := by
          intro hp
          have h1 := hinv.P_dn lo hp (by omega)
          omega
        exact ⟨ids lo, (hinv.open_iff _).mpr ⟨lo, le_rfl, by omega, hloP, rfl⟩⟩
  obtain ⟨n, hn⟩ := hx
  intro hnil
  rw [hnil] at hn
  simp at hn

/-! ## A* on path graphs: path reconstruction and the main loop -/

theorem recon_up {ids : Nat → Nat} {ps : Nat} (cf : List (Nat × Nat)) (hi : Nat)
    (hcf_up : ∀ i, ps < i → i ≤ hi → List.lookup (ids i) cf = some (ids (i - 1)))
    (hcf_ps : List.lookup (ids ps) cf = none) :
    ∀ d i, i = ps + d → i ≤ hi → ∀ (acc : List Nat) (fuel : Nat), d < fuel →
      reconAux cf fuel (ids i) acc = (List.range' ps d).map ids ++ acc := by
  intro d
  induction d with
  | zero =>
    intro i hi0 hile acc fuel hfuel
    have hips : i = ps := by omega
    subst hips
    cases fuel with
    | zero => omega
    | succ f =>
      simp only [reconAux, hcf_ps]
      simp
  | succ d ih =>
    intro i hi0 hile acc fuel hfuel
    cases fuel with
    | zero => omega
    | succ f =>
      have hpslt : ps < i := by omega
      have hlk := hcf_up i hpslt hile
      have hstep : reconAux cf (f + 1) (ids i) acc =
          reconAux cf f (ids (i - 1)) (ids (i - 1) :: acc) := by
        simp only [reconAux, hlk]
      rw [hstep, ih (i - 1) (by omega) (by omega) (ids (i - 1) :: acc) f (by omega)]
      rw [range'_concat_one, List.map_append, List.append_assoc,
        show ps + d = i - 1 from by omega]
      rfl

theorem recon_dn {ids : Nat → Nat} {ps : Nat} (cf : List (Nat × Nat)) (lo : Nat)
    (hcf_dn : ∀ i, lo ≤ i → i < ps → List.lookup (ids i) cf = some (ids (i + 1)))
    (hcf_ps : List.lookup (ids ps) cf = none) :
    ∀ d i, i + d = ps → lo ≤ i → ∀ (acc : List Nat) (fuel : Nat), d < fuel →
      reconAux cf fuel (ids i) acc = ((List.range' (i + 1) d).reverse).map ids ++ acc := by
  intro d
  induction d with
  | zero =>
    intro i hi0 hlo acc fuel hfuel
    have hips : i = ps := by omega
    subst hips
    cases fuel with
    | zero => omega
    | succ f =>
      simp only [reconAux, hcf_ps]
      simp
  | succ d ih =>
    intro i hi0 hlo acc fuel hfuel
    cases fuel with
    | zero => omega
    | succ f =>
      have hilt : i < ps := by omega
      have hlk := hcf_dn i hlo hilt
      have hstep : reconAux cf (f + 1) (ids i) acc =
          reconAux cf f (ids (i + 1)) (ids (i + 1) :: acc) := by
        simp only [reconAux, hlk]
      rw [hstep, ih (i + 1) (by omega) (by omega) (ids (i + 1) :: acc) f (by omega)]
      rw [show List.range' (i + 1) (d + 1) = (i + 1) :: List.range' (i + 1 + 1) d from
        List.range'_succ (i + 1) d 1]
      rw [List.reverse_cons, List.map_append, List.append_assoc]
      rfl

theorem reconstruct_spec {ids : Nat → Nat} {N ps pt : Nat} {w : ℚ}
    {st : AStarState} {P : Finset Nat} {lo hi : Nat}
    (hinv : AInv ids N ps pt w st P lo hi) (h1 : lo ≤ pt) (h2 : pt ≤ hi) :
    reconstructPath st.cameFrom (ids pt) = (posSeg ps pt).map ids := by
  have hlen := hinv.cf_len
  have hlo := hinv.lo_le
  have hhi := hinv.le_hi
  rw [reconstructPath]
  by_cases hle : ps ≤ pt
  · rw [recon_up st.cameFrom hi hinv.cf_up hinv.cf_ps (pt - ps) pt (by omega) h2
      [ids pt] (st.cameFrom.length + 1) (by omega)]
    rw [posSeg, if_pos hle, range'_concat_one ps (pt - ps), List.map_append,
      show ps + (pt - ps) = pt from by omega]
    rfl
  · have hlt : pt < ps := by omega
    rw [recon_dn st.cameFrom lo hinv.cf_dn hinv.cf_ps (ps - pt) pt (by omega) h1
      [ids pt] (st.cameFrom.length + 1) (by omega)]
    rw [posSeg, if_neg hle,
      show List.range' pt (ps - pt + 1) = pt :: List.range' (pt + 1) (ps - pt) from
        List.range'_succ pt (ps - pt) 1,
      List.reverse_cons, List.map_append]
    rfl

theorem astarLoop_succ_some (adj : Nat → List (Nat × ℚ)) (pos : Nat → Nat)
    (goal fuel : Nat) (st : AStarState) (entry : WithTop ℚ × Nat)
    (h : heapMin st.openSet = some entry) :
    astarLoop adj pos goal (fuel + 1) st =
      if entry.2 = goal then some (reconstructPath st.cameFrom entry.2)
      else
        astarLoop adj pos goal fuel
          ((adj entry.2).foldl (relaxOne pos goal entry.2)
            { st with openSet := st.openSet.erase entry }) := by
  rw [astarLoop_succ, h]

theorem astarLoop_path_graph {ids : Nat → Nat} {N ps pt : Nat} {w : ℚ}
    (adj : Nat → List (Nat × ℚ)) (pos : Nat → Nat)
    (hinj : ∀ i, i < N → ∀ j, j < N → ids i = ids j → i = j) (hw : 0 ≤ w)
    (hadj : ∀ i, i < N → adj (ids i) = nbrs ids N w i ∨ adj (ids i) = (nbrs ids N w i).reverse)
    (hptN : pt < N) :
    ∀ (fuel : Nat) (st : AStarState) (P : Finset Nat) (lo hi : Nat),
      AInv ids N ps pt w st P lo hi → N + 1 ≤ fuel + P.card →
      astarLoop adj pos (ids pt) fuel st = some ((posSeg ps pt).map ids) := by
  intro fuel
  induction fuel with
  | zero =>
    intro st P lo hi hinv hcard
    exfalso
    have hsub : P ⊆ Finset.range N := fun p hp =>
      Finset.mem_range.mpr (lt_of_le_of_lt (hinv.P_hi p hp) hinv.hi_lt)
    have hle := Finset.card_le_card hsub
    rw [Finset.card_range] at hle
    omega
  | succ f ih =>
    intro st P lo hi hinv hcard
    have hne := open_ne_nil hinv hptN
    obtain ⟨entry, hentry⟩ : ∃ e, heapMin st.openSet = some e := by
      cases hm : heapMin st.openSet with
      | none => exact absurd ((heapMin_eq_none_iff _).mp hm) hne
      | some e => exact ⟨e, rfl⟩
    have hmem := heapMin_mem _ _ hentry
    obtain ⟨c, hclo, hchi, hcP, hc_eq, hmid⟩ := pop_mid hinj hinv hmem
    have hcN : c < N := lt_of_le_of_lt hchi hinv.hi_lt
    rw [astarLoop_succ_some adj pos (ids pt) f st entry hentry]
    by_cases hgoal : entry.2 = ids pt
    · rw [if_pos hgoal]
      have hc : c = pt := hinj c hcN pt hptN (hc_eq.symm.trans hgoal)
      subst hc
      rw [hgoal]
      exact congrArg some (reconstruct_spec hinv hclo hchi)
    · rw [if_neg hgoal]
      have hcpt : c ≠ pt := fun h => hgoal (by rw [hc_eq, h])
      rw [hc_eq]
      obtain ⟨lo', hi', hl, hh, hup', hdn', hmid'⟩ :=
        relaxAll_path adj pos (ids pt) hinj hw hmid (hadj c hcN)
      have hinv' := mid_to_inv hmid' hup' hdn' hcpt
      have hcard' : (insert c P).card = P.card + 1 := Finset.card_insert_of_not_mem hcP
      exact ih _ (insert c P) lo' hi' hinv' (by omega)

theorem chain'_lt_range' : ∀ n s : Nat, List.Chain' (· < ·) (List.range' s n) := by
  intro n
  induction n with
  | zero => intro s; simp
  | succ m ih =>
    intro s
    cases m with
    | zero => simp [show List.range' s 1 = s :: List.range' (s + 1) 0 from
        List.range'_succ s 0 1]
    | succ k =>
      have h2 := ih (s + 1)
      rw [show List.range' (s + 1) (k + 1) = (s + 1) :: List.range' (s + 1 + 1) k from
        List.range'_succ (s + 1) k 1] at h2
      rw [show List.range' s (k + 1 + 1) = s :: List.range' (s + 1) (k + 1) from
        List.range'_succ s (k + 1) 1,
        show List.range' (s + 1) (k + 1) = (s + 1) :: List.range' (s + 1 + 1) k from
        List.range'_succ (s + 1) k 1]
      exact List.chain'_cons.mpr ⟨by omega, h2⟩

theorem posSeg_length (ps pt : Nat) : (posSeg ps pt).length = Nat.dist ps pt + 1 := by
  rw [posSeg]
  split_ifs with h
  · rw [List.length_range']
    simp only [nat_dist_def]
    omega
  · rw [List.length_reverse, List.length_range']
    simp only [nat_dist_def]
    omega

theorem posSeg_chain_up (ps pt : Nat) (h : ps ≤ pt) :
    List.Chain' (· < ·) (posSeg ps pt) := by
  rw [posSeg, if_pos h]
  exact chain'_lt_range' _ _

theorem posSeg_chain_dn (ps pt : Nat) (h : pt < ps) :
    List.Chain' (· > ·) (posSeg ps pt) := by
  rw [posSeg, if_neg (by omega : ¬ ps ≤ pt)]
  rw [List.chain'_reverse]
  exact chain'_lt_range' _ _

/-- C2: on every valid path-graph instance (`N` nodes with pairwise distinct
ids, node `ids i` at position index `i`, bidirectional edges of one weight
`w ≥ 0` between consecutive positions, in either adjacency order) and with
enough fuel for the source loop (`N + 1` iterations always suffice), `_astar`
from `ids ps` to `ids pt` returns exactly the traversal of the positions from
`ps` to `pt`: its length is `|pt - ps| + 1` and its position sequence is
strictly monotonic (increasing or decreasing with the travel direction); and
whenever the open queue is empty the loop returns `none` (the unreachable
case). -/
theorem C2_astar_path_graph :
    (∀ (adj : Nat → List (Nat × ℚ)) (pos : Nat → Nat) (goal fuel : Nat) (st : AStarState),
        st.openSet = [] → astarLoop adj pos goal fuel st = none) ∧
    (∀ (adj : Nat → List (Nat × ℚ)) (pos ids : Nat → Nat) (N ps pt : Nat) (w : ℚ),
        0 ≤ w →
        (∀ i, i < N → ∀ j, j < N → ids i = ids j → i = j) →
        (∀ i, i < N → adj (ids i) = nbrs ids N w i ∨ adj (ids i) = (nbrs ids N w i).reverse) →
        ps < N → pt < N →
        ∀ fuel, N + 1 ≤ fuel →
          astar adj pos fuel (ids ps) (ids pt) = some ((posSeg ps pt).map ids) ∧
          ((posSeg ps pt).map ids).length = Nat.dist ps pt + 1 ∧
          (ps ≤ pt → List.Chain' (· < ·) (posSeg ps pt)) ∧
          (pt < ps → List.Chain' (· > ·) (posSeg ps pt))) := by
  constructor
  · intro adj pos goal fuel st h
    cases fuel with
    | zero => rfl
    | succ f =>
      rw [astarLoop_succ, h]
      rfl
  · intro adj pos ids N ps pt w hw hinj hadj hpsN hptN fuel hfuel
    refine ⟨?_, ?_, posSeg_chain_up ps pt, posSeg_chain_dn ps pt⟩
    · rw [astar]
      exact astarLoop_path_graph adj pos hinj hw hadj hptN fuel
        (astarInit pos (ids ps) (ids pt)) ∅ ps ps (astarInit_inv pos hinj hpsN)
        (by simpa using hfuel)
    · rw [List.length_map]
      exact posSeg_length ps pt

/-- Witness for C2 at the concrete three-node path instance with identity
node ids and weight 0.7, from position 0 to position 2. -/
theorem C2_witness :
    astar (nbrs (fun i => i) 3 (7/10)) (fun i => i) 4 0 2 =
        some ((posSeg 0 2).map (fun i => i)) ∧
      ((posSeg 0 2).map (fun i => i)).length = Nat.dist 0 2 + 1 ∧
      (0 ≤ 2 → List.Chain' (· < ·) (posSeg 0 2)) ∧
      (2 < 0 → List.Chain' (· > ·) (posSeg 0 2)) :=
  C2_astar_path_graph.2 (nbrs (fun i => i) 3 (7/10)) (fun i => i) (fun i => i) 3 0 2 (7/10)
    (by norm_num) (fun i _ j _ h => h) (fun i _ => Or.inl rfl) (by omega) (by omega)
    4 (by omega)

end GuideSight
